import Mathlib

/-!
Shallow embedding of the summarization core of the `page_summarizer`
repository (files `agent.py`, `openai_module.py`, `ollama_module.py`),
together with theorems settling the claims about it.

Modelling conventions:
* Python strings are Lean `String`s; timestamps (`time.time()`) are `ℚ`.
* Network calls are abstracted by an oracle `ℕ → NetResult` giving the
  outcome of each attempt; exceptions become `Except String String`.
* Environment-configured constants (`MAX_RETRIES`, `BASE_DELAY`, ...) are
  parameters of the embedded functions; the module-level defaults are
  also defined as named constants.
* The md5 cache fingerprint is modelled as the identity on the input text
  (a stable, injective key derivation).
-/

namespace PageSummarizer

/-- Model of Python `str.strip()` on the characters of a string
(whitespace trimmed from both ends). -/
def pyStrip (s : String) : String :=
  String.mk (((s.data.dropWhile Char.isWhitespace).reverse.dropWhile Char.isWhitespace).reverse)

namespace Agent

/-- `MAX_TEXT_LENGTH` constant from `agent.py`. -/
def MAX_TEXT_LENGTH : ℕ := 5000

/-- Model of Python `str.rfind(c)` restricted to single characters, on a
list of characters: index of the last occurrence of `c`, or `-1` when
absent. -/
def rfind : List Char → Char → ℤ
  | [], _ => -1
  | a :: as, c =>
    let r := rfind as c
    if 0 ≤ r then r + 1 else if a = c then 0 else -1

/-- The `last_sentence_end` value computed inside `truncate_text`:
`max(truncated.rfind('.'), truncated.rfind('!'), truncated.rfind('?'))`. -/
def lastSentenceEnd (l : List Char) : ℤ :=
  max (rfind l '.') (max (rfind l '!') (rfind l '?'))

/-- `truncate_text` from `agent.py`: keep the whole text when it fits,
otherwise cut to `max_length` characters and, when the last
sentence-ending mark of that prefix sits past the 80% point, cut right
after that mark.  The Python comparison `last_sentence_end > max_length * 0.8`
is modelled by the exact inequality `5 * i > 4 * max_length`. -/
def truncate_text (text : List Char) (max_length : ℕ) : List Char :=
  if text.length ≤ max_length then text
  else
    let truncated := text.take max_length
    if 5 * lastSentenceEnd truncated > 4 * (max_length : ℤ) then
      truncated.take ((lastSentenceEnd truncated).toNat + 1)
    else
      truncated

/-- The aggregate error message raised by `summarize_url` when both the
OpenAI and the Ollama backends fail (`agent.py`, line 192). -/
def aggregateMsg (e1 e2 : String) : String :=
  "Не удалось создать резюме ни через OpenAI, ни через Ollama. OpenAI ошибка: " ++ e1
    ++ ", Ollama ошибка: " ++ e2

/-- The fallback orchestration of `summarize_url` (`agent.py`, lines
181–194), with the two backend clients abstracted as functions from the
cleaned text to an exceptional result. -/
def summarizeWithFallback (primary secondary : String → Except String String)
    (text : String) : Except String String :=
  match primary text with
  | .ok s => .ok s
  | .error e1 =>
    match secondary text with
    | .ok s => .ok s
    | .error e2 => .error (aggregateMsg e1 e2)

end Agent

namespace OpenAIModule

/-- Default of `MAX_RETRIES` in `openai_module.py`. -/
def MAX_RETRIES : ℕ := 3

/-- Default of `BASE_DELAY` in `openai_module.py`. -/
def BASE_DELAY : ℕ := 2

/-- Default of `MAX_REQUESTS_PER_MINUTE` in `openai_module.py`. -/
def MAX_REQUESTS_PER_MINUTE : ℕ := 8

/-- `RATE_LIMIT_WINDOW` in `openai_module.py` (seconds). -/
def RATE_LIMIT_WINDOW : ℚ := 60

/-- Default of `CACHE_MAX_SIZE` in `openai_module.py`. -/
def CACHE_MAX_SIZE : ℕ := 200

/-- Default of `CACHE_TTL` in `openai_module.py` (seconds). -/
def CACHE_TTL : ℚ := 3600

/-- One entry of the module-level `cache` dict: the key (the md5 digest,
modelled as the text itself), the stored summary, and its creation
timestamp. -/
structure CacheEntry where
  key : String
  result : String
  timestamp : ℚ
deriving DecidableEq

/-- The `cache` dict, as its entries in insertion order (Python dicts
iterate in insertion order, which is what `min` over the keys sees). -/
abbrev Cache := List CacheEntry

/-- Dict membership test plus read: the first entry stored under `k`. -/
def lookupEntry (c : Cache) (k : String) : Option CacheEntry :=
  c.find? (fun e => e.key = k)

/-- Python `del cache[key]`. -/
def eraseKey (c : Cache) (k : String) : Cache :=
  c.filter (fun e => ¬ e.key = k)

/-- Python `cache[key] = item`: overwrite in place when the key exists
(keeping its position, as dicts do), otherwise append at the end. -/
def insertEntry : Cache → String → String → ℚ → Cache
  | [], k, v, t => [⟨k, v, t⟩]
  | e :: rest, k, v, t =>
    if e.key = k then ⟨k, v, t⟩ :: rest else e :: insertEntry rest k v t

/-- Python `del cache[min(cache.keys(), key=lambda k: cache[k]['timestamp'])]`:
remove the first entry (in insertion order) having the smallest creation
timestamp. -/
def removeOldest : Cache → Cache
  | [] => []
  | e :: rest =>
    if rest.all (fun x => e.timestamp ≤ x.timestamp) then rest
    else e :: removeOldest rest

/-- `_get_from_cache` from `openai_module.py`: on a fresh entry return its
result; on an expired entry delete it and return `none`; otherwise
`none`.  Returns the possibly-updated cache alongside. -/
def get_from_cache (ttl : ℚ) (c : Cache) (now : ℚ) (text : String) :
    Option String × Cache :=
  match lookupEntry c text with
  | some e => if now - e.timestamp < ttl then (some e.result, c) else (none, eraseKey c text)
  | none => (none, c)

/-- `_save_to_cache` from `openai_module.py`: when at (or above) capacity
first evict the entry with the smallest timestamp, then store the result
under the text's key with creation time `now`. -/
def save_to_cache (maxSize : ℕ) (c : Cache) (now : ℚ) (text result : String) : Cache :=
  insertEntry (if maxSize ≤ c.length then removeOldest c else c) text result now

/-- The cache entry created by storing summary `p.2.1` for text `p.1` at
time `p.2.2`. -/
def toEntry (p : String × String × ℚ) : CacheEntry := ⟨p.1, p.2.1, p.2.2⟩

/-- A sequence of `_save_to_cache` calls, one per (text, summary, time)
triple, threading the cache. -/
def runSaves (maxSize : ℕ) : Cache → List (String × String × ℚ) → Cache
  | c, [] => c
  | c, p :: rest => runSaves maxSize (save_to_cache maxSize c p.2.2 p.1 p.2.1) rest

/-- Minimum of a nonempty list of timestamps, Python `min(request_times)`. -/
def listMin (h : ℚ) (t : List ℚ) : ℚ := t.foldl min h

/-- `_check_rate_limit` from `openai_module.py`: purge timestamps older
than the window, and when the limit is reached sleep until the oldest
retained request ages out before recording the call.  The state is the
`request_times` list; the returned `ℚ` is the time at which the call is
admitted (i.e. `time.time()` after the optional sleep), which is also the
timestamp appended to the window. -/
def check_rate_limit (lcap : ℕ) (w : ℚ) (ts : List ℚ) (now : ℚ) : List ℚ × ℚ :=
  let purged := ts.filter (fun t => now - t < w)
  if lcap ≤ purged.length then
    match purged with
    | [] => (purged ++ [now], now)
    | h :: t =>
      let wait := w - (now - listMin h t)
      let admitted := if 0 < wait then now + wait else now
      (purged ++ [admitted], admitted)
  else
    (purged ++ [now], now)

/-- A sequence of `_check_rate_limit` calls at the given times, threading
the window; returns the final window and the admission time of each call. -/
def runAcquires (lcap : ℕ) (w : ℚ) (ts : List ℚ) : List ℚ → List ℚ × List ℚ
  | [] => (ts, [])
  | c :: cs =>
    let s := check_rate_limit lcap w ts c
    let r := runAcquires lcap w s.1 cs
    (r.1, s.2 :: r.2)

/-- Outcome of one network attempt inside `summarize_text`'s retry loop:
a successful response body, a `RateLimitError`, an `APIError` (whose
string may or may not contain "429"), or any other exception. -/
inductive NetResult where
  | success (content : String)
  | rateLimited (msg : String)
  | apiErr (msg : String) (has429 : Bool)
  | otherErr (msg : String)

/-- Message of the exception raised after exhausting retries on
throttling (`RateLimitError`, or `APIError` mentioning 429). -/
def finalRateMsg (m : ℕ) : String :=
  "Превышен лимит запросов после " ++ toString m ++ " попыток. Попробуйте позже."

/-- Message of the exception raised after exhausting retries on a
non-throttling `APIError`. -/
def finalApiMsg (m : ℕ) (e : String) : String :=
  "Ошибка API после " ++ toString m ++ " попыток: " ++ e

/-- Message of the exception raised after exhausting retries on any other
exception. -/
def finalOtherMsg (m : ℕ) (e : String) : String :=
  "Неожиданная ошибка после " ++ toString m ++ " попыток: " ++ e

/-- Result of running the retry loop: the value returned or exception
raised, the number of network attempts made, and the backoff sleeps (in
seconds, in order) that the loop itself performed between attempts.  (On
throttling the source additionally re-runs `_check_rate_limit` after the
sleep; only the explicit `time.sleep` delays of the loop are recorded
here.) -/
structure LoopResult where
  outcome : Except String String
  attemptsMade : ℕ
  delays : List ℕ

/-- The `for attempt in range(MAX_RETRIES)` loop of `summarize_text`
(`openai_module.py`, lines 120–173), at attempt index `attempt` with
`fuel` iterations left (`fuel = maxRetries - attempt` at every call).
On success the response content is stripped; on `RateLimitError` or a
429-`APIError` the loop sleeps `BASE_DELAY * 2 ** attempt` before the
next attempt; on any other error it sleeps a constant `BASE_DELAY`. -/
def retryLoop (m base : ℕ) (net : ℕ → NetResult) : ℕ → ℕ → LoopResult
  | _, 0 => ⟨.error "", 0, []⟩
  | attempt, fuel + 1 =>
    match net attempt with
    | .success s => ⟨.ok (pyStrip s), 1, []⟩
    | .rateLimited _ =>
      if attempt < m - 1 then
        let r := retryLoop m base net (attempt + 1) fuel
        ⟨r.outcome, r.attemptsMade + 1, base * 2 ^ attempt :: r.delays⟩
      else ⟨.error (finalRateMsg m), 1, []⟩
    | .apiErr e has429 =>
      if has429 then
        if attempt < m - 1 then
          let r := retryLoop m base net (attempt + 1) fuel
          ⟨r.outcome, r.attemptsMade + 1, base * 2 ^ attempt :: r.delays⟩
        else ⟨.error (finalRateMsg m), 1, []⟩
      else
        if attempt = m - 1 then ⟨.error (finalApiMsg m e), 1, []⟩
        else
          let r := retryLoop m base net (attempt + 1) fuel
          ⟨r.outcome, r.attemptsMade + 1, base :: r.delays⟩
    | .otherErr e =>
      if attempt = m - 1 then ⟨.error (finalOtherMsg m e), 1, []⟩
      else
        let r := retryLoop m base net (attempt + 1) fuel
        ⟨r.outcome, r.attemptsMade + 1, base :: r.delays⟩

/-- Full observable outcome of one `summarize_text` call: the result, the
cache afterwards, whether `_check_rate_limit` was invoked on entry,
whether an OpenAI client was constructed, and the retry loop's trace. -/
structure SummarizeOutcome where
  outcome : Except String String
  cacheOut : Cache
  rateLimitChecked : Bool
  clientConstructed : Bool
  attemptsMade : ℕ
  delays : List ℕ

/-- The non-cached path of `summarize_text`: rate-limit gate, client
construction (which fails when `OPENAI_API_KEY` is absent), then the
retry loop; a successful summary is saved to the cache. -/
def summarizeNet (m base maxSize : ℕ) (apiKeyPresent : Bool) (net : ℕ → NetResult)
    (c : Cache) (now : ℚ) (text : String) : SummarizeOutcome :=
  if apiKeyPresent then
    let r := retryLoop m base net 0 m
    let c2 := match r.outcome with
      | .ok s => save_to_cache maxSize c now text s
      | .error _ => c
    ⟨r.outcome, c2, true, true, r.attemptsMade, r.delays⟩
  else
    ⟨.error "OPENAI_API_KEY не найден в переменных окружения", c, true, false, 0, []⟩

/-- `summarize_text` from `openai_module.py`: consult the cache first —
note the source's `if cached_result:` truthiness test, under which only a
non-empty cached string short-circuits — and otherwise go to the network
path. -/
def summarize_text (m base maxSize : ℕ) (ttl : ℚ) (apiKeyPresent : Bool)
    (net : ℕ → NetResult) (c : Cache) (now : ℚ) (text : String) : SummarizeOutcome :=
  let lk := get_from_cache ttl c now text
  match lk.1 with
  | some r =>
    if r ≠ "" then ⟨.ok r, lk.2, false, false, 0, []⟩
    else summarizeNet m base maxSize apiKeyPresent net lk.2 now text
  | none => summarizeNet m base maxSize apiKeyPresent net lk.2 now text

end OpenAIModule

namespace OllamaModule

/-- Default of `MAX_RETRIES` in `ollama_module.py`. -/
def MAX_RETRIES : ℕ := 3

/-- Default of `BASE_DELAY` in `ollama_module.py` (seconds). -/
def BASE_DELAY : ℕ := 1

/-- Outcome of one network attempt inside the Ollama retry loop: a JSON
body carrying a "response" field, a JSON body lacking it (malformed
response), or a `requests` exception (connection error or HTTP error
status). -/
inductive OllamaNet where
  | response (s : String)
  | missingField
  | requestErr (msg : String)

/-- Message of the exception raised when the liveness probe fails. -/
def unavailableMsg : String := "Ollama сервис недоступен. Убедитесь, что Ollama запущен."

/-- Message of the exception raised on a body without a "response" field. -/
def malformedMsg : String := "Неожиданный формат ответа от Ollama"

/-- Message of the exception raised after exhausting retries on request
errors. -/
def ollamaFinalReqMsg (m : ℕ) (e : String) : String :=
  "Ошибка запроса к Ollama после " ++ toString m ++ " попыток: " ++ e

/-- Message of the exception raised after exhausting retries on any other
exception (including the malformed-response exception, which is raised
inside the `try` block and caught by `except Exception`). -/
def ollamaFinalOtherMsg (m : ℕ) (e : String) : String :=
  "Неожиданная ошибка Ollama после " ++ toString m ++ " попыток: " ++ e

/-- The `for attempt in range(MAX_RETRIES)` loop of the Ollama
`summarize_text` (`ollama_module.py`, lines 81–121), at attempt index
`attempt` with `fuel = maxRetries - attempt` iterations left.  Both the
request-error branch and the generic-exception branch (which also catches
the malformed-response exception) back off `BASE_DELAY * 2 ** attempt`
seconds before the next attempt. -/
def ollamaLoop (m base : ℕ) (net : ℕ → OllamaNet) : ℕ → ℕ → OpenAIModule.LoopResult
  | _, 0 => ⟨.error "", 0, []⟩
  | attempt, fuel + 1 =>
    match net attempt with
    | .response s => ⟨.ok (pyStrip s), 1, []⟩
    | .requestErr e =>
      if attempt < m - 1 then
        let r := ollamaLoop m base net (attempt + 1) fuel
        ⟨r.outcome, r.attemptsMade + 1, base * 2 ^ attempt :: r.delays⟩
      else ⟨.error (ollamaFinalReqMsg m e), 1, []⟩
    | .missingField =>
      if attempt = m - 1 then ⟨.error (ollamaFinalOtherMsg m malformedMsg), 1, []⟩
      else
        let r := ollamaLoop m base net (attempt + 1) fuel
        ⟨r.outcome, r.attemptsMade + 1, base * 2 ^ attempt :: r.delays⟩

/-- `summarize_text` from `ollama_module.py`: probe liveness first and
fail fast (zero generation attempts) when the probe fails; otherwise run
the retry loop. -/
def ollama_summarize (m base : ℕ) (available : Bool) (net : ℕ → OllamaNet) :
    OpenAIModule.LoopResult :=
  if available then ollamaLoop m base net 0 m
  else ⟨.error unavailableMsg, 0, []⟩

end OllamaModule

end PageSummarizer


namespace PageSummarizer

open Agent OpenAIModule OllamaModule

/-! ## Helper lemmas about `rfind` -/

theorem rfind_ge (l : List Char) (c : Char) : -1 ≤ rfind l c := by
  induction l with
  | nil => simp [rfind]
  | cons a as ih =>
    simp only [rfind]
    split
    · omega
    · split <;> omega

theorem rfind_lt_length (l : List Char) (c : Char) : rfind l c < l.length := by
  induction l with
  | nil => simp [rfind]
  | cons a as ih =>
    simp only [rfind, List.length_cons]
    split
    · push_cast
      omega
    · split <;> (push_cast; omega)

theorem rfind_getElem (l : List Char) (c : Char) (h : 0 ≤ rfind l c) :
    l[(rfind l c).toNat]? = some c := by
  induction l with
  | nil => simp [rfind] at h
  | cons a as ih =>
    simp only [rfind] at h ⊢
    split
    · rename_i h0
      have ht : (rfind as c + 1).toNat = (rfind as c).toNat + 1 := by omega
      rw [ht]
      simpa using ih h0
    · rename_i h0
      split
      · rename_i hac
        simp [hac]
      · rename_i hac
        rw [if_neg h0, if_neg hac] at h
        omega

theorem rfind_last (l : List Char) (c : Char) (j : ℕ) (hj : rfind l c < (j : ℤ)) :
    l[j]? ≠ some c := by
  induction l generalizing j with
  | nil => simp
  | cons a as ih =>
    simp only [rfind] at hj
    rcases j with _ | j'
    · -- j = 0: the head must not be c
      intro hcon
      simp at hcon
      have hge := rfind_ge as c
      revert hj
      split <;> omega
    · -- j = j' + 1: pass to the tail
      have htail : rfind as c < (j' : ℤ) := by
        have hge := rfind_ge as c
        revert hj
        split
        · push_cast; omega
        · split <;> (push_cast; omega)
      simpa using ih j' htail

/-- The `last_sentence_end` computation inside `truncate_text`. -/
theorem lastSentenceEnd_cases (l : List Char) :
    lastSentenceEnd l = rfind l '.' ∨ lastSentenceEnd l = rfind l '!' ∨
      lastSentenceEnd l = rfind l '?' := by
  unfold lastSentenceEnd
  rcases max_choice (rfind l '.') (max (rfind l '!') (rfind l '?')) with h | h
  · exact Or.inl h
  · rcases max_choice (rfind l '!') (rfind l '?') with h2 | h2
    · exact Or.inr (Or.inl (h.trans h2))
    · exact Or.inr (Or.inr (h.trans h2))

theorem lastSentenceEnd_mem (l : List Char) (h : 0 ≤ lastSentenceEnd l) :
    ∃ ch, (ch = '.' ∨ ch = '!' ∨ ch = '?') ∧
      l[(lastSentenceEnd l).toNat]? = some ch := by
  rcases lastSentenceEnd_cases l with he | he | he <;>
    rw [he] at h ⊢
  · exact ⟨'.', Or.inl rfl, rfind_getElem l '.' h⟩
  · exact ⟨'!', Or.inr (Or.inl rfl), rfind_getElem l '!' h⟩
  · exact ⟨'?', Or.inr (Or.inr rfl), rfind_getElem l '?' h⟩

theorem lastSentenceEnd_maximal (l : List Char) (j : ℕ)
    (hj : lastSentenceEnd l < (j : ℤ)) :
    l[j]? ≠ some '.' ∧ l[j]? ≠ some '!' ∧ l[j]? ≠ some '?' := by
  have h1 : rfind l '.' ≤ lastSentenceEnd l := le_max_left _ _
  have h2 : rfind l '!' ≤ lastSentenceEnd l :=
    le_trans (le_max_left _ _) (le_max_right _ _)
  have h3 : rfind l '?' ≤ lastSentenceEnd l :=
    le_trans (le_max_right _ _) (le_max_right _ _)
  exact ⟨rfind_last l '.' j (lt_of_le_of_lt h1 hj),
    rfind_last l '!' j (lt_of_le_of_lt h2 hj),
    rfind_last l '?' j (lt_of_le_of_lt h3 hj)⟩

theorem lastSentenceEnd_lt_length (l : List Char) : lastSentenceEnd l < l.length := by
  rcases lastSentenceEnd_cases l with he | he | he <;> rw [he] <;>
    exact rfind_lt_length _ _

/-! ## C1, C2: the orchestrator's fallback and aggregate error -/

/-- C1: whenever the primary client's summarize raises any error and the
secondary client's summarize returns a summary `S`, the orchestrator
returns `S` and never surfaces an error (in particular the aggregate
error path is not triggered). -/
theorem fallback_returns_secondary (primary secondary : String → Except String String)
    (text e S : String)
    (hp : primary text = .error e) (hs : secondary text = .ok S) :
    summarizeWithFallback primary secondary text = .ok S ∧
      ∀ msg, summarizeWithFallback primary secondary text ≠ .error msg := by
  constructor
  · simp [summarizeWithFallback, hp, hs]
  · intro msg
    simp [summarizeWithFallback, hp, hs]

theorem fallback_returns_secondary_witness :
    summarizeWithFallback (fun _ => .error "boom") (fun _ => .ok "S") "t" = .ok "S" ∧
      ∀ msg,
        summarizeWithFallback (fun _ => .error "boom") (fun _ => .ok "S") "t" ≠
          .error msg :=
  fallback_returns_secondary (fun _ => .error "boom") (fun _ => .ok "S") "t" "boom" "S"
    rfl rfl

/-- C2: whenever the primary client's summarize raises `e1` and the
secondary's then raises `e2`, the orchestrator fails with the single
aggregate error, whose description contains both `e1` and `e2`. -/
theorem fallback_aggregate (primary secondary : String → Except String String)
    (text e1 e2 : String)
    (hp : primary text = .error e1) (hs : secondary text = .error e2) :
    summarizeWithFallback primary secondary text = .error (aggregateMsg e1 e2) ∧
      (∃ a b, aggregateMsg e1 e2 = a ++ e1 ++ b) ∧
      (∃ a b, aggregateMsg e1 e2 = a ++ e2 ++ b) := by
  refine ⟨by simp [summarizeWithFallback, hp, hs], ?_, ?_⟩
  · exact ⟨"Не удалось создать резюме ни через OpenAI, ни через Ollama. OpenAI ошибка: ",
      ", Ollama ошибка: " ++ e2, by simp [aggregateMsg, String.append_assoc]⟩
  · exact ⟨"Не удалось создать резюме ни через OpenAI, ни через Ollama. OpenAI ошибка: "
      ++ e1 ++ ", Ollama ошибка: ", "", by simp [aggregateMsg, String.append_assoc]⟩

theorem fallback_aggregate_witness :
    summarizeWithFallback (fun _ => .error "E1") (fun _ => .error "E2") "t" =
        .error (aggregateMsg "E1" "E2") ∧
      (∃ a b, aggregateMsg "E1" "E2" = a ++ "E1" ++ b) ∧
      (∃ a b, aggregateMsg "E1" "E2" = a ++ "E2" ++ b) :=
  fallback_aggregate (fun _ => .error "E1") (fun _ => .error "E2") "t" "E1" "E2" rfl rfl

/-! ## C10: truncate_text -/

/-- C10: `truncate_text text max_length` returns a prefix of `text` of
length at most `max_length`; a text that fits is returned unchanged, and
an overlong text is cut either right after the last sentence-ending mark
of its `max_length`-character prefix when that mark lies in the final 20%
of that prefix, or at exactly `max_length` characters. -/
theorem truncate_text_spec (text : List Char) (m : ℕ) (hm : 0 < m) :
    text.take (truncate_text text m).length = truncate_text text m ∧
    (truncate_text text m).length ≤ m ∧
    (text.length ≤ m → truncate_text text m = text) ∧
    (m < text.length →
      (truncate_text text m = text.take m ∨
        ∃ i : ℕ, ∃ ch : Char, (ch = '.' ∨ ch = '!' ∨ ch = '?') ∧
          truncate_text text m = text.take (i + 1) ∧
          text[i]? = some ch ∧
          (∀ j : ℕ, i < j → j < m →
            text[j]? ≠ some '.' ∧ text[j]? ≠ some '!' ∧ text[j]? ≠ some '?') ∧
          4 * m < 5 * i)) := by
  by_cases hfit : text.length ≤ m
  · have hr : truncate_text text m = text := by simp [truncate_text, hfit]
    refine ⟨?_, ?_, fun _ => hr, fun hcon => absurd hfit (by omega)⟩
    · rw [hr, List.take_length]
    · rw [hr]; exact hfit
  · have hlong : m < text.length := by omega
    have hlt : (text.take m).length = m := by
      rw [List.length_take]; omega
    by_cases hcond : 4 * (m : ℤ) < 5 * lastSentenceEnd (text.take m)
    · -- the sentence-mark branch
      have hr : truncate_text text m =
          (text.take m).take ((lastSentenceEnd (text.take m)).toNat + 1) := by
        simp only [truncate_text, if_neg hfit]
        rw [if_pos hcond]
      have h0le : 0 ≤ lastSentenceEnd (text.take m) := by omega
      have hi0lt : lastSentenceEnd (text.take m) < (m : ℤ) := by
        have := lastSentenceEnd_lt_length (text.take m)
        rwa [hlt] at this
      set k := (lastSentenceEnd (text.take m)).toNat with hk
      have hkm : k < m := by omega
      have hr2 : truncate_text text m = text.take (k + 1) := by
        rw [hr, List.take_take]
        congr 1
        omega
      have hlen2 : (text.take (k + 1)).length = k + 1 := by
        rw [List.length_take]; omega
      refine ⟨?_, ?_, fun hcon => absurd hcon (by omega), fun _ => ?_⟩
      · rw [hr2, hlen2]
      · rw [hr2, hlen2]; omega
      · right
        obtain ⟨ch, hch, hat⟩ := lastSentenceEnd_mem (text.take m) h0le
        rw [← hk] at hat
        have hat' : text[k]? = some ch := by
          rw [List.getElem?_take, if_pos hkm] at hat
          exact hat
        refine ⟨k, ch, hch, hr2, hat', ?_, by omega⟩
        intro j hkj hjm
        have hmax := lastSentenceEnd_maximal (text.take m) j (by omega)
        rw [List.getElem?_take, if_pos hjm] at hmax
        exact hmax
    · -- the plain-cut branch
      have hr : truncate_text text m = text.take m := by
        simp only [truncate_text, if_neg hfit]
        rw [if_neg hcond]
      refine ⟨?_, ?_, fun hcon => absurd hcon (by omega), fun _ => Or.inl hr⟩
      · rw [hr, hlt]
      · rw [hr, hlt]

theorem truncate_text_spec_witness :
    0 < 4 ∧
      ("ab.cd".data.take (truncate_text "ab.cd".data 4).length =
          truncate_text "ab.cd".data 4 ∧
        (truncate_text "ab.cd".data 4).length ≤ 4) :=
  ⟨by decide,
    ⟨(truncate_text_spec "ab.cd".data 4 (by decide)).1,
      (truncate_text_spec "ab.cd".data 4 (by decide)).2.1⟩⟩

/-! ## Cache lemmas (C7, C8) -/

theorem lookupEntry_insertEntry_self (c : Cache) (k v : String) (t : ℚ) :
    lookupEntry (insertEntry c k v t) k = some ⟨k, v, t⟩ := by
  induction c with
  | nil => simp [insertEntry, lookupEntry, List.find?]
  | cons e rest ih =>
    by_cases h : e.key = k
    · simp [insertEntry, h, lookupEntry, List.find?]
    · simp only [insertEntry, if_neg h]
      simpa [lookupEntry, List.find?, h] using ih

theorem lookupEntry_none_of_keys (c : Cache) (k : String)
    (h : ∀ e ∈ c, ¬ e.key = k) : lookupEntry c k = none := by
  simp only [lookupEntry, List.find?_eq_none, decide_eq_true_eq]
  exact h

theorem lookupEntry_eraseKey_self (c : Cache) (k : String) :
    lookupEntry (eraseKey c k) k = none := by
  apply lookupEntry_none_of_keys
  intro e he
  have := List.of_mem_filter he
  simpa using this

theorem insertEntry_of_absent (c : Cache) (k v : String) (t : ℚ)
    (h : lookupEntry c k = none) : insertEntry c k v t = c ++ [⟨k, v, t⟩] := by
  induction c with
  | nil => rfl
  | cons e rest ih =>
    simp only [lookupEntry, List.find?_cons] at h
    rcases hek : decide (e.key = k) with _ | _
    · rw [hek] at h
      simp only [insertEntry, if_neg (of_decide_eq_false hek), List.cons_append]
      congr 1
      exact ih h
    · rw [hek] at h
      simp at h


theorem removeOldest_cons_of_min (e : CacheEntry) (rest : Cache)
    (h : ∀ x ∈ rest, e.timestamp ≤ x.timestamp) :
    removeOldest (e :: rest) = rest := by
  simp only [removeOldest]
  rw [if_pos]
  rw [List.all_eq_true]
  intro x hx
  simpa using h x hx

theorem removeOldest_length (c : Cache) (h : c ≠ []) :
    (removeOldest c).length + 1 = c.length := by
  induction c with
  | nil => exact absurd rfl h
  | cons e rest ih =>
    simp only [removeOldest]
    split
    · simp
    · rename_i hall
      have hne : rest ≠ [] := by
        intro hcon
        subst hcon
        simp at hall
      simp only [List.length_cons]
      rw [← ih hne]

theorem insertEntry_length_le (c : Cache) (k v : String) (t : ℚ) :
    (insertEntry c k v t).length ≤ c.length + 1 := by
  induction c with
  | nil => simp [insertEntry]
  | cons e rest ih =>
    simp only [insertEntry]
    split
    · simp
    · simp only [List.length_cons]
      omega

theorem save_to_cache_length_le (maxSize : ℕ) (hN : 0 < maxSize) (c : Cache)
    (now : ℚ) (k v : String) (hc : c.length ≤ maxSize) :
    (save_to_cache maxSize c now k v).length ≤ maxSize := by
  unfold save_to_cache
  by_cases hfull : maxSize ≤ c.length
  · rw [if_pos hfull]
    have hne : c ≠ [] := by
      intro hcon
      subst hcon
      simp at hfull
      omega
    have h1 := removeOldest_length c hne
    have h2 := insertEntry_length_le (removeOldest c) k v now
    omega
  · rw [if_neg hfull]
    have h2 := insertEntry_length_le c k v now
    omega

theorem save_under_capacity (maxSize : ℕ) (c : Cache) (now : ℚ) (k v : String)
    (hlen : c.length < maxSize) (habs : lookupEntry c k = none) :
    save_to_cache maxSize c now k v = c ++ [⟨k, v, now⟩] := by
  unfold save_to_cache
  rw [if_neg (by omega)]
  exact insertEntry_of_absent c k v now habs

theorem lookupEntry_append_none (c : Cache) (e : CacheEntry) (k : String)
    (h1 : lookupEntry c k = none) (h2 : ¬ e.key = k) :
    lookupEntry (c ++ [e]) k = none := by
  apply lookupEntry_none_of_keys
  intro x hx
  rcases List.mem_append.mp hx with h | h
  · simp only [lookupEntry, List.find?_eq_none, decide_eq_true_eq] at h1
    exact h1 x h
  · simp only [List.mem_singleton] at h
    subst h
    exact h2

theorem runSaves_under_capacity (maxSize : ℕ) :
    ∀ (es : List (String × String × ℚ)) (c : Cache),
      c.length + es.length ≤ maxSize →
      (∀ p ∈ es, lookupEntry c p.1 = none) →
      (es.map (fun p => p.1)).Nodup →
      runSaves maxSize c es = c ++ es.map toEntry := by
  intro es
  induction es with
  | nil => intro c _ _ _; simp [runSaves]
  | cons p rest ih =>
    intro c hlen hfresh hnodup
    simp only [runSaves]
    have hstep : save_to_cache maxSize c p.2.2 p.1 p.2.1 = c ++ [toEntry p] := by
      apply save_under_capacity
      · simp only [List.length_cons] at hlen
        omega
      · exact hfresh p (List.mem_cons_self p rest)
    rw [hstep]
    have hkey : ∀ q ∈ rest, ¬ q.1 = p.1 := by
      intro q hq hcon
      simp only [List.map_cons, List.nodup_cons] at hnodup
      exact hnodup.1 (hcon ▸ List.mem_map_of_mem (fun r => r.1) hq)
    have := ih (c ++ [toEntry p])
      (by simp only [List.length_append, List.length_singleton,
            List.length_cons, List.length_nil] at hlen ⊢; omega)
      (by
        intro q hq
        exact lookupEntry_append_none c (toEntry p) q.1
          (hfresh q (List.mem_cons_of_mem p hq))
          (fun hcon => hkey q hq hcon.symm))
      (by
        simp only [List.map_cons, List.nodup_cons] at hnodup
        exact hnodup.2)
    rw [this, List.map_cons, List.append_assoc, List.singleton_append]

theorem runSaves_append (maxSize : ℕ) (es fs : List (String × String × ℚ)) :
    ∀ c, runSaves maxSize c (es ++ fs) = runSaves maxSize (runSaves maxSize c es) fs := by
  induction es with
  | nil => intro c; rfl
  | cons p rest ih => intro c; simp only [List.cons_append, runSaves]; exact ih _

/-- C7: `store(T, S)` followed immediately by `lookup(T)` returns `S`;
and once `TTL` seconds have elapsed since the store, `lookup(T)` returns
absent and removes the expired entry from the cache. -/
theorem cache_store_lookup_ttl (maxSize : ℕ) (ttl : ℚ) (httl : 0 < ttl)
    (c : Cache) (now now' : ℚ) (T S : String) (hlater : now + ttl ≤ now') :
    get_from_cache ttl (save_to_cache maxSize c now T S) now T =
        (some S, save_to_cache maxSize c now T S) ∧
      (get_from_cache ttl (save_to_cache maxSize c now T S) now' T).1 = none ∧
      lookupEntry (get_from_cache ttl (save_to_cache maxSize c now T S) now' T).2 T
        = none := by
  have hfind : lookupEntry (save_to_cache maxSize c now T S) T = some ⟨T, S, now⟩ := by
    unfold save_to_cache
    exact lookupEntry_insertEntry_self _ _ _ _
  have hexp : ¬ (now' - now < ttl) := by linarith
  refine ⟨?_, ?_, ?_⟩
  · simp [get_from_cache, hfind, sub_self, httl]
  · simp [get_from_cache, hfind, hexp]
  · simp [get_from_cache, hfind, hexp, lookupEntry_eraseKey_self]

theorem cache_store_lookup_ttl_witness :
    get_from_cache 3600 (save_to_cache 200 [] 0 "t" "s") 0 "t" =
        (some "s", save_to_cache 200 [] 0 "t" "s") ∧
      (get_from_cache 3600 (save_to_cache 200 [] 0 "t" "s") 3600 "t").1 = none ∧
      lookupEntry (get_from_cache 3600 (save_to_cache 200 [] 0 "t" "s") 3600 "t").2 "t"
        = none :=
  cache_store_lookup_ttl 200 3600 (by norm_num) [] 0 3600 "t" "s" (by norm_num)

/-- C8: the cache never exceeds its capacity — a store at capacity first
evicts the entry with the smallest creation timestamp — and inserting
`capacity + 1` distinct entries into an empty cache leaves exactly
`capacity` entries, the oldest-created one evicted. -/
theorem cache_eviction (maxSize : ℕ) (hN : 0 < maxSize)
    (f0 q : String × String × ℚ) (fr : List (String × String × ℚ))
    (hlen : (f0 :: fr).length = maxSize)
    (hnodup : (((f0 :: fr) ++ [q]).map (fun p => p.1)).Nodup)
    (hts : ((f0 :: fr) ++ [q]).Pairwise (fun a b => a.2.2 < b.2.2)) :
    runSaves maxSize [] ((f0 :: fr) ++ [q]) = (fr ++ [q]).map toEntry ∧
      (runSaves maxSize [] ((f0 :: fr) ++ [q])).length = maxSize ∧
      lookupEntry (runSaves maxSize [] ((f0 :: fr) ++ [q])) f0.1 = none ∧
      ∀ (c : Cache) (now : ℚ) (k v : String),
        c.length ≤ maxSize → (save_to_cache maxSize c now k v).length ≤ maxSize := by
  have hlen' : fr.length + 1 = maxSize := by
    simpa using hlen
  -- split the Nodup hypothesis into its pieces
  rw [List.map_append, List.nodup_append] at hnodup
  obtain ⟨hnodup1, _, hdisj⟩ := hnodup
  have hqfresh : ∀ p ∈ f0 :: fr, ¬ p.1 = q.1 := by
    intro p hp hcon
    have hmem : p.1 ∈ (f0 :: fr).map (fun r => r.1) :=
      List.mem_map_of_mem (fun r => r.1) hp
    have := hdisj hmem
    simp at this
    exact this hcon
  have hhead : ∀ b ∈ fr ++ [q], f0.2.2 < b.2.2 := by
    rw [List.cons_append] at hts
    exact (List.pairwise_cons.mp hts).1
  have hfirst : runSaves maxSize [] (f0 :: fr) = (f0 :: fr).map toEntry := by
    have := runSaves_under_capacity maxSize (f0 :: fr) []
      (by simp only [List.length_nil, Nat.zero_add]; exact hlen.le)
      (by intro p _; rfl)
      (by
        rw [List.map_cons, List.nodup_cons] at hnodup1 ⊢
        exact hnodup1)
    simpa using this
  have hmain : runSaves maxSize [] ((f0 :: fr) ++ [q]) = (fr ++ [q]).map toEntry := by
    rw [runSaves_append, hfirst]
    show save_to_cache maxSize ((f0 :: fr).map toEntry) q.2.2 q.1 q.2.1
        = (fr ++ [q]).map toEntry
    unfold save_to_cache
    rw [if_pos (by simp [← hlen'])]
    have hrem : removeOldest ((f0 :: fr).map toEntry) = fr.map toEntry := by
      rw [List.map_cons]
      apply removeOldest_cons_of_min
      intro x hx
      obtain ⟨p, hp, rfl⟩ := List.mem_map.mp hx
      exact le_of_lt (hhead p (List.mem_append.mpr (Or.inl hp)))
    rw [hrem]
    have habs : lookupEntry (fr.map toEntry) q.1 = none := by
      apply lookupEntry_none_of_keys
      intro e he
      obtain ⟨p, hp, rfl⟩ := List.mem_map.mp he
      exact hqfresh p (List.mem_cons_of_mem f0 hp)
    rw [insertEntry_of_absent _ _ _ _ habs]
    simp [toEntry]
  refine ⟨hmain, ?_, ?_, ?_⟩
  · rw [hmain]
    simp only [List.length_map, List.length_append, List.length_singleton]
    omega
  · rw [hmain]
    apply lookupEntry_none_of_keys
    intro e he
    obtain ⟨p, hp, rfl⟩ := List.mem_map.mp he
    rcases List.mem_append.mp hp with h | h
    · intro hcon
      rw [List.map_cons, List.nodup_cons] at hnodup1
      exact hnodup1.1 (hcon ▸ List.mem_map_of_mem (fun r => r.1) h)
    · simp only [List.mem_singleton] at h
      subst h
      intro hcon
      exact hqfresh f0 (List.mem_cons_self f0 fr) hcon.symm
  · intro c now k v hc
    exact save_to_cache_length_le maxSize hN c now k v hc

theorem cache_eviction_witness :
    runSaves 2 [] ((("a", "A", (0 : ℚ)) :: [("b", "B", 1)]) ++ [("c", "C", 2)]) =
        ([("b", "B", (1 : ℚ))] ++ [("c", "C", 2)]).map toEntry ∧
      lookupEntry
        (runSaves 2 [] ((("a", "A", (0 : ℚ)) :: [("b", "B", 1)]) ++ [("c", "C", 2)]))
        "a" = none :=
  ⟨(cache_eviction 2 (by decide) ("a", "A", 0) ("c", "C", 2) [("b", "B", 1)]
      (by decide) (by decide) (by decide)).1,
    (cache_eviction 2 (by decide) ("a", "A", 0) ("c", "C", 2) [("b", "B", 1)]
      (by decide) (by decide) (by decide)).2.2.1⟩

/-! ## Rate limiter lemmas (C5) -/

theorem listMin_of_le (h : ℚ) (t : List ℚ) (hle : ∀ x ∈ t, h ≤ x) :
    listMin h t = h := by
  induction t generalizing h with
  | nil => rfl
  | cons x xs ih =>
    simp only [listMin, List.foldl_cons]
    rw [min_eq_left (hle x (List.mem_cons_self x xs))]
    exact ih h (fun y hy => hle y (List.mem_cons_of_mem x hy))

theorem filter_window_keep (w : ℚ) (ts : List ℚ) (now : ℚ)
    (h : ∀ x ∈ ts, now - x < w) :
    ts.filter (fun t => now - t < w) = ts := by
  rw [List.filter_eq_self]
  intro a ha
  simpa using h a ha

theorem check_rate_limit_free (lcap : ℕ) (w : ℚ) (ts : List ℚ) (now : ℚ)
    (hkeep : ∀ x ∈ ts, now - x < w) (hlt : ts.length < lcap) :
    check_rate_limit lcap w ts now = (ts ++ [now], now) := by
  simp only [check_rate_limit, filter_window_keep w ts now hkeep]
  rw [if_neg (by omega)]

theorem check_rate_limit_blocked (lcap : ℕ) (w : ℚ) (h0 : ℚ) (rest : List ℚ)
    (now : ℚ)
    (hkeep : ∀ x ∈ h0 :: rest, now - x < w)
    (hmin : ∀ x ∈ rest, h0 ≤ x)
    (hfull : lcap ≤ (h0 :: rest).length)
    (hwait : 0 < w - (now - h0)) :
    check_rate_limit lcap w (h0 :: rest) now =
      ((h0 :: rest) ++ [h0 + w], h0 + w) := by
  simp only [check_rate_limit, filter_window_keep w (h0 :: rest) now hkeep]
  rw [if_pos hfull]
  rw [listMin_of_le h0 rest hmin]
  rw [if_pos hwait]
  have : now + (w - (now - h0)) = h0 + w := by ring
  rw [this]

theorem runAcquires_free (lcap : ℕ) (w : ℚ) :
    ∀ (cs ts : List ℚ) (lo hi : ℚ),
      hi - lo < w →
      (∀ x ∈ ts, lo ≤ x ∧ x ≤ hi) →
      (∀ x ∈ cs, lo ≤ x ∧ x ≤ hi) →
      ts.length + cs.length ≤ lcap →
      runAcquires lcap w ts cs = (ts ++ cs, cs) := by
  intro cs
  induction cs with
  | nil => intro ts lo hi _ _ _ _; simp [runAcquires]
  | cons c cs ih =>
    intro ts lo hi hw hts hcs hlen
    have hstep : check_rate_limit lcap w ts c = (ts ++ [c], c) := by
      apply check_rate_limit_free
      · intro x hx
        have h1 := hts x hx
        have h2 := hcs c (List.mem_cons_self c cs)
        linarith [h1.1, h2.2]
      · simp only [List.length_cons] at hlen
        omega
    have hrec := ih (ts ++ [c]) lo hi hw
      (by
        intro x hx
        rcases List.mem_append.mp hx with h | h
        · exact hts x h
        · simp only [List.mem_singleton] at h
          subst h
          exact hcs x (List.mem_cons_self x cs))
      (fun x hx => hcs x (List.mem_cons_of_mem c hx))
      (by simp only [List.length_append, List.length_singleton,
            List.length_cons, List.length_nil] at hlen ⊢; omega)
    simp only [runAcquires, hstep, hrec]
    simp [List.append_assoc]

theorem runAcquires_concat (lcap : ℕ) (w : ℚ) (cs : List ℚ) (t : ℚ) :
    ∀ ts, runAcquires lcap w ts (cs ++ [t]) =
      ((check_rate_limit lcap w (runAcquires lcap w ts cs).1 t).1,
        (runAcquires lcap w ts cs).2 ++
          [(check_rate_limit lcap w (runAcquires lcap w ts cs).1 t).2]) := by
  induction cs with
  | nil => intro ts; simp [runAcquires]
  | cons c cs ih =>
    intro ts
    simp only [List.cons_append, runAcquires, List.append_eq]
    rw [ih]

/-- C5: a `_check_rate_limit` call purges stale timestamps and, when
`L` remain retained, blocks until the oldest retained call ages out of the
window: the `(L+1)`-th of `L+1` calls issued within less than `W` seconds
is admitted exactly at `oldest + W`, i.e. only once at least `W` seconds
have elapsed since the oldest retained call. -/
theorem rate_limiter_blocks (lcap : ℕ) (w : ℚ) (_hw : 0 < w)
    (c0 : ℚ) (rest : List ℚ) (t : ℚ)
    (hlen : (c0 :: rest).length = lcap)
    (hmem : ∀ x ∈ c0 :: rest, c0 ≤ x ∧ x ≤ t)
    (hspread : t - c0 < w) :
    (runAcquires lcap w [] ((c0 :: rest) ++ [t])).2.getLast? = some (c0 + w) ∧
      w ≤ (c0 + w) - c0 := by
  have hc0t : c0 ≤ t := (hmem c0 (List.mem_cons_self c0 rest)).2
  have hfree : runAcquires lcap w [] (c0 :: rest) = ([] ++ (c0 :: rest), c0 :: rest) :=
    runAcquires_free lcap w (c0 :: rest) [] c0 t hspread
      (by intro x hx; simp at hx) hmem
      (by simp only [List.length_nil, Nat.zero_add]; exact hlen.le)
  have hblock : check_rate_limit lcap w (c0 :: rest) t =
      ((c0 :: rest) ++ [c0 + w], c0 + w) := by
    apply check_rate_limit_blocked
    · intro x hx
      have := hmem x hx
      linarith [this.1]
    · intro x hx
      exact (hmem x (List.mem_cons_of_mem c0 hx)).1
    · omega
    · linarith
  rw [runAcquires_concat, hfree]
  simp only [List.nil_append, hblock]
  constructor
  · exact List.getLast?_concat _
  · linarith

theorem rate_limiter_blocks_witness :
    (runAcquires 8 60 []
          (((0 : ℚ) :: [1, 2, 3, 4, 5, 6, 7]) ++ [8])).2.getLast? =
        some (0 + 60) ∧
      (60 : ℚ) ≤ (0 + 60) - 0 :=
  rate_limiter_blocks 8 60 (by norm_num) 0 [1, 2, 3, 4, 5, 6, 7] 8
    (by decide) (by decide) (by norm_num)

/-! ## Retry loop lemmas (C3, C4) -/

theorem retryLoop_rateLimited (m base : ℕ) (net : ℕ → NetResult)
    (msgs : ℕ → String) (hnet : ∀ n, net n = .rateLimited (msgs n)) :
    ∀ fuel attempt, attempt + fuel = m → 1 ≤ fuel →
      retryLoop m base net attempt fuel =
        ⟨.error (finalRateMsg m), fuel,
          (List.range' attempt (fuel - 1)).map (fun n => base * 2 ^ n)⟩ := by
  intro fuel
  induction fuel with
  | zero => intro attempt _ h; omega
  | succ f ih =>
    intro attempt hsum _
    simp only [retryLoop, hnet attempt]
    rcases Nat.eq_zero_or_pos f with hf | hf
    · subst hf
      rw [if_neg (by omega)]
      simp
    · rw [if_pos (by omega)]
      rw [ih (attempt + 1) (by omega) (by omega)]
      have hr : List.range' attempt (f + 1 - 1) =
          attempt :: List.range' (attempt + 1) (f - 1) := by
        have h1 : f + 1 - 1 = (f - 1) + 1 := by omega
        rw [h1, List.range'_succ attempt (f - 1) 1]
      rw [hr]
      simp

theorem retryLoop_apiError (m base : ℕ) (net : ℕ → NetResult)
    (msgs : ℕ → String) (hnet : ∀ n, net n = .apiErr (msgs n) false) :
    ∀ fuel attempt, attempt + fuel = m → 1 ≤ fuel →
      retryLoop m base net attempt fuel =
        ⟨.error (finalApiMsg m (msgs (m - 1))), fuel,
          List.replicate (fuel - 1) base⟩ := by
  intro fuel
  induction fuel with
  | zero => intro attempt _ h; omega
  | succ f ih =>
    intro attempt hsum _
    simp only [retryLoop, hnet attempt, Bool.false_eq_true, if_false]
    rcases Nat.eq_zero_or_pos f with hf | hf
    · subst hf
      rw [if_pos (by omega : attempt = m - 1)]
      rw [show attempt = m - 1 by omega]
      simp
    · rw [if_neg (by omega : ¬ attempt = m - 1)]
      rw [ih (attempt + 1) (by omega) (by omega)]
      have hr : List.replicate (f + 1 - 1) base = base :: List.replicate (f - 1) base := by
        have h1 : f + 1 - 1 = (f - 1) + 1 := by omega
        rw [h1, List.replicate_succ]
      rw [hr]

/-- C3: on a network that always throws a throttling error (and a cache
miss), the primary client makes exactly `M = MAX_RETRIES` attempts, with
backoff sleeps `base * 2 ^ n` for `n < M - 1` (the sequence `base,
2*base, 4*base, ...`), and fails with the rate-limited error. -/
theorem retry_backoff_throttling (m base maxSize : ℕ) (ttl : ℚ)
    (net : ℕ → NetResult) (msgs : ℕ → String) (c : Cache) (now : ℚ)
    (text : String) (hm : 1 ≤ m)
    (hmiss : (get_from_cache ttl c now text).1 = none)
    (hnet : ∀ n, net n = .rateLimited (msgs n)) :
    summarize_text m base maxSize ttl true net c now text =
      ⟨.error (finalRateMsg m), (get_from_cache ttl c now text).2, true, true, m,
        (List.range (m - 1)).map (fun n => base * 2 ^ n)⟩ := by
  have hloop := retryLoop_rateLimited m base net msgs hnet m 0 (by omega) hm
  simp only [summarize_text, hmiss, summarizeNet, if_true, hloop]
  rw [List.range_eq_range']

theorem retry_backoff_throttling_witness :
    summarize_text 3 2 200 3600 true (fun _ => .rateLimited "r") [] 0 "t" =
      ⟨.error (finalRateMsg 3), (get_from_cache 3600 [] 0 "t").2, true, true, 3,
        (List.range 2).map (fun n => 2 * 2 ^ n)⟩ :=
  retry_backoff_throttling 3 2 200 3600 (fun _ => .rateLimited "r") (fun _ => "r")
    [] 0 "t" (by decide) rfl (fun _ => rfl)

/-- C4, counterexample: on a network that always throws a non-throttling
`APIError` the delays are the constant `BASE_DELAY`, not the exponential
sequence `base * 2 ^ attempt` the claim states (with `M = 3`,
`base = 2` the sleeps are `[2, 2]`, not `[2, 4]`). -/
theorem api_error_backoff_counterexample :
    (summarize_text 3 2 200 3600 true (fun _ => .apiErr "boom" false) [] 0 "t").delays
        = [2, 2] ∧
      (summarize_text 3 2 200 3600 true (fun _ => .apiErr "boom" false) [] 0 "t").delays
        ≠ (List.range (3 - 1)).map (fun n => 2 * 2 ^ n) := by
  constructor
  · rfl
  · decide

/-- C4, amended: on a network that always throws a transient
non-throttling `APIError` (and a cache miss), the primary client retries
with a constant `BASE_DELAY`-second sleep between attempts (not
exponential backoff), makes exactly `M` attempts, and fails with the
api-error failure. -/
theorem api_error_fixed_backoff (m base maxSize : ℕ) (ttl : ℚ)
    (net : ℕ → NetResult) (msgs : ℕ → String) (c : Cache) (now : ℚ)
    (text : String) (hm : 1 ≤ m)
    (hmiss : (get_from_cache ttl c now text).1 = none)
    (hnet : ∀ n, net n = .apiErr (msgs n) false) :
    summarize_text m base maxSize ttl true net c now text =
      ⟨.error (finalApiMsg m (msgs (m - 1))), (get_from_cache ttl c now text).2,
        true, true, m, List.replicate (m - 1) base⟩ := by
  have hloop := retryLoop_apiError m base net msgs hnet m 0 (by omega) hm
  simp only [summarize_text, hmiss, summarizeNet, if_true, hloop]

theorem api_error_fixed_backoff_witness :
    summarize_text 3 2 200 3600 true (fun _ => .apiErr "boom" false) [] 0 "t" =
      ⟨.error (finalApiMsg 3 "boom"), (get_from_cache 3600 [] 0 "t").2,
        true, true, 3, List.replicate 2 2⟩ :=
  api_error_fixed_backoff 3 2 200 3600 (fun _ => .apiErr "boom" false)
    (fun _ => "boom") [] 0 "t" (by decide) rfl (fun _ => rfl)

/-! ## C6: cache hits -/

/-- C6, counterexample: a fresh cache entry holding the empty summary is
not returned — the source's `if cached_result:` truthiness test sends the
call to the network path, so the rate limiter does run and the result is
not the cached value. -/
theorem cache_hit_empty_counterexample :
    (get_from_cache 3600 [⟨"t", "", 0⟩] 1 "t").1 = some "" ∧
      (summarize_text 3 2 200 3600 true (fun _ => .success "S")
          [⟨"t", "", 0⟩] 1 "t").rateLimitChecked = true ∧
      (summarize_text 3 2 200 3600 true (fun _ => .success "S")
          [⟨"t", "", 0⟩] 1 "t").outcome ≠ .ok "" := by
  have hhit : get_from_cache 3600 [⟨"t", "", 0⟩] 1 "t" =
      (some "", [⟨"t", "", 0⟩]) := by
    have hcond : (1 : ℚ) - 0 < 3600 := by norm_num
    simp [get_from_cache, lookupEntry, List.find?, hcond]
  refine ⟨by rw [hhit], ?_, ?_⟩
  · simp [summarize_text, hhit, summarizeNet]
  · simp only [summarize_text, hhit]
    simp [summarizeNet, retryLoop, pyStrip]

/-- C6, amended: a fresh cache entry holding a NON-empty summary `S` is
returned immediately: no rate-limiter check, no client construction, no
network attempt, no backoff sleep, and the cache is left unchanged. -/
theorem cache_hit_returns (m base maxSize : ℕ) (ttl : ℚ) (apiKeyPresent : Bool)
    (net : ℕ → NetResult) (c : Cache) (now : ℚ) (text S : String)
    (hhit : (get_from_cache ttl c now text).1 = some S) (hS : S ≠ "") :
    summarize_text m base maxSize ttl apiKeyPresent net c now text =
      ⟨.ok S, c, false, false, 0, []⟩ := by
  have hc2 : (get_from_cache ttl c now text).2 = c := by
    rcases hfind : lookupEntry c text with _ | e
    · simp [get_from_cache, hfind] at hhit
    · simp only [get_from_cache, hfind] at hhit ⊢
      split at hhit
      · rename_i hfresh
        rw [if_pos hfresh]
      · simp at hhit
  simp only [summarize_text, hhit, hc2]
  rw [if_pos hS]

theorem cache_hit_returns_witness :
    summarize_text 3 2 200 3600 true (fun _ => .success "x")
        [⟨"t", "s", 0⟩] 0 "t" =
      ⟨.ok "s", [⟨"t", "s", 0⟩], false, false, 0, []⟩ :=
  cache_hit_returns 3 2 200 3600 true (fun _ => .success "x") [⟨"t", "s", 0⟩] 0 "t" "s"
    (by norm_num [get_from_cache, lookupEntry, List.find?]) (by decide)

/-! ## C9: the Ollama client's retry policy -/

/-- C9, counterexample: with the liveness probe succeeding and every
attempt returning a body without a "response" field (a malformed,
non-transient response), the Ollama client still retries — it makes all 3
attempts with exponential backoff sleeps `[1, 2]`, not the single attempt
the claim's "non-transient failures are not retried" would give. -/
theorem ollama_malformed_retried_counterexample :
    (ollama_summarize 3 1 true (fun _ => .missingField)).attemptsMade = 3 ∧
      (ollama_summarize 3 1 true (fun _ => .missingField)).attemptsMade ≠ 1 ∧
      (ollama_summarize 3 1 true (fun _ => .missingField)).delays = [1, 2] := by
  refine ⟨rfl, ?_, rfl⟩
  decide

theorem ollamaLoop_requestErr (m base : ℕ) (net : ℕ → OllamaNet)
    (msgs : ℕ → String) (hnet : ∀ n, net n = .requestErr (msgs n)) :
    ∀ fuel attempt, attempt + fuel = m → 1 ≤ fuel →
      ollamaLoop m base net attempt fuel =
        ⟨.error (ollamaFinalReqMsg m (msgs (m - 1))), fuel,
          (List.range' attempt (fuel - 1)).map (fun n => base * 2 ^ n)⟩ := by
  intro fuel
  induction fuel with
  | zero => intro attempt _ h; omega
  | succ f ih =>
    intro attempt hsum _
    simp only [ollamaLoop, hnet attempt]
    rcases Nat.eq_zero_or_pos f with hf | hf
    · subst hf
      rw [if_neg (by omega)]
      rw [show attempt = m - 1 by omega]
      simp
    · rw [if_pos (by omega)]
      rw [ih (attempt + 1) (by omega) (by omega)]
      have hr : List.range' attempt (f + 1 - 1) =
          attempt :: List.range' (attempt + 1) (f - 1) := by
        have h1 : f + 1 - 1 = (f - 1) + 1 := by omega
        rw [h1, List.range'_succ attempt (f - 1) 1]
      rw [hr]
      simp

theorem ollamaLoop_missingField (m base : ℕ) (net : ℕ → OllamaNet)
    (hnet : ∀ n, net n = .missingField) :
    ∀ fuel attempt, attempt + fuel = m → 1 ≤ fuel →
      ollamaLoop m base net attempt fuel =
        ⟨.error (ollamaFinalOtherMsg m malformedMsg), fuel,
          (List.range' attempt (fuel - 1)).map (fun n => base * 2 ^ n)⟩ := by
  intro fuel
  induction fuel with
  | zero => intro attempt _ h; omega
  | succ f ih =>
    intro attempt hsum _
    simp only [ollamaLoop, hnet attempt]
    rcases Nat.eq_zero_or_pos f with hf | hf
    · subst hf
      rw [if_pos (by omega : attempt = m - 1)]
      simp
    · rw [if_neg (by omega : ¬ attempt = m - 1)]
      rw [ih (attempt + 1) (by omega) (by omega)]
      have hr : List.range' attempt (f + 1 - 1) =
          attempt :: List.range' (attempt + 1) (f - 1) := by
        have h1 : f + 1 - 1 = (f - 1) + 1 := by omega
        rw [h1, List.range'_succ attempt (f - 1) 1]
      rw [hr]
      simp

/-- C9, amended: when the liveness probe fails the Ollama client fails
fast with zero generation attempts; when the probe succeeds it retries
with a fixed attempt cap and exponential delay `base * 2 ^ attempt` on
ALL generation failures — transient request errors and malformed
(missing "response" field) responses alike. -/
theorem ollama_retry_policy (m base : ℕ) (net1 net2 : ℕ → OllamaNet)
    (msgs : ℕ → String) (hm : 1 ≤ m)
    (h1 : ∀ n, net1 n = .requestErr (msgs n))
    (h2 : ∀ n, net2 n = .missingField) :
    (∀ net, ollama_summarize m base false net = ⟨.error unavailableMsg, 0, []⟩) ∧
      ollama_summarize m base true net1 =
        ⟨.error (ollamaFinalReqMsg m (msgs (m - 1))), m,
          (List.range (m - 1)).map (fun n => base * 2 ^ n)⟩ ∧
      ollama_summarize m base true net2 =
        ⟨.error (ollamaFinalOtherMsg m malformedMsg), m,
          (List.range (m - 1)).map (fun n => base * 2 ^ n)⟩ := by
  refine ⟨fun net => rfl, ?_, ?_⟩
  · have := ollamaLoop_requestErr m base net1 msgs h1 m 0 (by omega) hm
    simp only [ollama_summarize, if_true, this]
    rw [List.range_eq_range']
  · have := ollamaLoop_missingField m base net2 h2 m 0 (by omega) hm
    simp only [ollama_summarize, if_true, this]
    rw [List.range_eq_range']

theorem ollama_retry_policy_witness :
    (∀ net, ollama_summarize 3 1 false net = ⟨.error unavailableMsg, 0, []⟩) ∧
      ollama_summarize 3 1 true (fun _ => .requestErr "e") =
        ⟨.error (ollamaFinalReqMsg 3 "e"), 3,
          (List.range 2).map (fun n => 1 * 2 ^ n)⟩ ∧
      ollama_summarize 3 1 true (fun _ => .missingField) =
        ⟨.error (ollamaFinalOtherMsg 3 malformedMsg), 3,
          (List.range 2).map (fun n => 1 * 2 ^ n)⟩ :=
  ollama_retry_policy 3 1 (fun _ => .requestErr "e") (fun _ => .missingField)
    (fun _ => "e") (by decide) (fun _ => rfl) (fun _ => rfl)

end PageSummarizer

